import Mathlib

/-!
Verification of the competitest batch test-runner.

Shallow embedding of the three source files:
 - `src/slice_trim_ext.rs` : byte-slice trimming (`SliceTrimExt::trim`);
 - `src/tests.rs`          : test discovery (`get_tests`) and the per-test
                             executor (`Test::run`, `Test::is_correct`);
 - `src/main.rs`           : the scheduler (tokio semaphore) and the result
                             aggregator / final report.

Byte slices are modelled as `List Nat`, Rust strings / paths as `List Char`.
Filesystem and process effects are passed in explicitly: the glob oracle is a
function from the pattern to its match list, the executor takes the
timeout-race outcome and the two file reads as parameters.
-/

namespace Competitest

/-! ## slice_trim_ext.rs -/

/-- Byte predicate from `slice_trim_ext.rs`: `is_whitespace` holds for
tab (9), space (32), line feed (10) and carriage return (13). -/
def is_whitespace (c : Nat) : Bool :=
  c == 9 || c == 32 || c == 10 || c == 13

/-- Negation, as in the source's `is_not_whitespace`. -/
def is_not_whitespace (c : Nat) : Bool :=
  !is_whitespace c

/-- Models Rust `Iterator::position`: index of the first element satisfying
the predicate. -/
def position (p : Nat → Bool) : List Nat → Option Nat
  | [] => none
  | c :: cs => if p c then some 0 else (position p cs).map (· + 1)

/-- Models Rust `Iterator::rposition`: index of the last element satisfying
the predicate, computed (as the double-ended iterator does) by searching the
reversed sequence. -/
def rposition (p : Nat → Bool) (xs : List Nat) : Option Nat :=
  match position p xs.reverse with
  | some i => some (xs.length - 1 - i)
  | none => none

/-- Models `<[u8] as SliceTrimExt>::trim` including its control flow: `none`
stands for the `unreachable!()` panic branch; `some ys` is a normal return of
the subslice `&self[first..last + 1]` (or of the empty slice). -/
def trimImpl (xs : List Nat) : Option (List Nat) :=
  match position is_not_whitespace xs with
  | some first =>
    match rposition is_not_whitespace xs with
    | some last => some ((xs.take (last + 1)).drop first)
    | none => none
  | none => some []

/-- The trim function as callers observe it (the panic branch is proved dead
in `C10_trim_total_never_panics`, so defaulting it to `[]` is unobservable). -/
def trim (xs : List Nat) : List Nat :=
  (trimImpl xs).getD []

/-! ## tests.rs : data model -/

/-- `struct Test` from tests.rs. -/
structure Test where
  name : List Char
  in_file : List Char
  out_file : List Char
deriving Repr, DecidableEq

/-- Models `std::process::Output` (exit status plus captured streams). -/
structure Output where
  status : Int
  stdout : List Nat
  stderr : List Nat
deriving Repr, DecidableEq

/-- `struct TestResult` from tests.rs. -/
structure TestResult where
  name : List Char
  time : Nat
  correct : Bool
  stdin : List Nat
  output : Output
deriving Repr, DecidableEq

/-- `enum TestTimeoutResult` from tests.rs. -/
inductive TestTimeoutResult where
  | TimedOut (name : List Char)
  | Finished (res : TestResult)
deriving Repr, DecidableEq

/-- Execution errors surfaced by `Test::run` (spawn / stdin / read / missing
expected-output file); the carried report text is irrelevant to the claims. -/
inductive RunError where
  | ioError
deriving Repr, DecidableEq

/-- `struct Args` from main.rs (the run configuration consumed by the core). -/
structure Args where
  task : List Char
  command : Option (List Char)
  in_pattern : List Char
  out_pattern : List Char
  timeout : Nat
  parallel : Nat
deriving Repr, DecidableEq

/-! ## tests.rs : Test::is_correct -/

/-- Models `Test::is_correct`: trim both the captured stdout and the
expected-output bytes, then compare for exact equality. -/
def is_correct (expected actual : List Nat) : Bool :=
  trim actual == trim expected

/-! ## tests.rs : Test::run -/

/-- Outcome of the `timeout(args.timeout, async { ... })` race in `Test::run`:
either the timer elapsed first, or the inner future finished with the result
of spawn + stdin write + `wait_with_output` (which may itself be an error). -/
inductive RunEvent where
  | timedOut
  | finished (inner : Except RunError Output)
deriving Repr

/-- Models `Test::run` after the race: `evt` is the race result, `outFileRead`
is the `fs::read(&self.out_file)` performed by `is_correct`, and `inFileRead`
is the `fs::read(&self.in_file)` used to fill `TestResult.stdin`.  A timeout
yields `Ok(TimedOut(name))`; a finished child yields `Ok(Finished _)` unless
one of the fallible steps failed, in which case the error propagates. -/
def Test.run (t : Test) (elapsed : Nat) (evt : RunEvent)
    (outFileRead inFileRead : Except RunError (List Nat)) :
    Except RunError TestTimeoutResult :=
  match evt with
  | .timedOut => .ok (.TimedOut t.name)
  | .finished inner =>
    match inner with
    | .error e => .error e
    | .ok output =>
      match outFileRead with
      | .error e => .error e
      | .ok expected =>
        match inFileRead with
        | .error e => .error e
        | .ok stdinBytes =>
          .ok (.Finished
            { name := t.name
              time := elapsed
              correct := is_correct expected output.stdout
              stdin := stdinBytes
              output := output })

/-- The child is spawned with `kill_on_drop(true)` (tests.rs line 40). -/
def spawnKillOnDrop : Bool := true

/-- What happens to the child process at the end of `Test::run`. -/
inductive ChildFate where
  | killed
  | exited
  | orphaned
deriving Repr, DecidableEq

/-- Models the tokio semantics of the race: when `timeout` elapses the inner
future is dropped, and a child spawned with `kill_on_drop(true)` is killed
when its handle is dropped; when the child finishes first it has exited. -/
def childFate (killOnDrop : Bool) (evt : RunEvent) : ChildFate :=
  match evt with
  | .timedOut => if killOnDrop then .killed else .orphaned
  | .finished _ => .exited

/-- Models the tokio `AsyncWriteExt::write` call on the child's stdin
(tests.rs line 46): a single `write` delivers some number `accepted` of bytes
from the front of the buffer (any `accepted` with `0 < accepted ≤ length` is
a legal result for a nonempty buffer) and returns that count, which
`Test::run` discards.  The child therefore receives `payload.take accepted`
followed by end-of-input. -/
def stdinDelivered (payload : List Nat) (accepted : Nat) : List Nat :=
  payload.take accepted

/-! ## tests.rs : discovery (get_tests) -/

/-- The literal task placeholder. -/
def taskPH : List Char := "\x7btask\x7d".toList

/-- The literal test-id placeholder. -/
def testPH : List Char := "\x7btest\x7d".toList

/-- The glob wildcard substituted for the test placeholder. -/
def starL : List Char := ['*']

/-- Fuelled worker for `replaceL`; the fuel is the length of the subject, and
each step consumes at least one element, so it never runs out for the
top-level call. -/
def replaceGo (pat rep : List Char) : Nat → List Char → List Char
  | _, [] => []
  | 0, rest => rest
  | fuel + 1, c :: cs =>
    if List.isPrefixOf pat (c :: cs) then
      rep ++ replaceGo pat rep fuel (List.drop (pat.length - 1) cs)
    else
      c :: replaceGo pat rep fuel cs

/-- Models Rust `str::replace`: every non-overlapping occurrence of `pat`,
scanning left to right, is replaced by `rep`.  All call sites pass one of the
nonempty placeholder literals as `pat`, so the empty-pattern case (where Rust
would interleave `rep` between characters) is returned unchanged. -/
def replaceL (s pat rep : List Char) : List Char :=
  if pat.isEmpty then s else replaceGo pat rep s.length s

/-- Models Rust `str::find` for a literal pattern: the offset of the first
occurrence of `pat` in `s`. -/
def findSubstr : List Char → List Char → Option Nat
  | [], pat => if pat.isEmpty then some 0 else none
  | c :: cs, pat =>
    if List.isPrefixOf pat (c :: cs) then some 0
    else (findSubstr cs pat).map (· + 1)

/-- Models the Rust slice `s[a..b]` on strings (claims only exercise it where
`a ≤ b ≤ length`, the range on which Rust does not panic). -/
def sliceL (l : List Char) (a b : Nat) : List Char :=
  (l.take b).drop a

/-- Errors of `get_tests`: the glob pattern failed to compile, or the
`{test}` placeholder is missing (`context("{test} not found in in_pattern")`).
(Both become a `color_eyre::Report` in the source.) -/
inductive DiscErr where
  | patternError
  | configError
deriving Repr, DecidableEq

/-- `task_in_pattern` from `get_tests`: the input pattern with the task
placeholder substituted. -/
def discPattern (args : Args) : List Char :=
  replaceL args.in_pattern taskPH args.task

/-- The test-id recovery of `get_tests` (tests.rs lines 144-146):
`path_str[test_pos .. path_str.len() - (task_in_pattern.len() - (test_pos + "{test}".len()))]`. -/
def recoverTestId (args : Args) (test_pos : Nat) (path : List Char) : List Char :=
  sliceL path test_pos
    (path.length - ((discPattern args).length - (test_pos + testPH.length)))

/-- Descriptor construction for one matched path (tests.rs lines 148-156). -/
def mkDescriptor (args : Args) (test_pos : Nat) (path : List Char) : Test :=
  { name := recoverTestId args test_pos path
    in_file := path
    out_file := replaceL (replaceL args.out_pattern taskPH args.task) testPH
      (recoverTestId args test_pos path) }

/-- The closure mapped over each successfully matched path (`map_ok`): fails
with the config error when the test placeholder is absent from
`task_in_pattern`, otherwise builds the descriptor. -/
def perPathDesc (args : Args) (path : List Char) : Except DiscErr Test :=
  match findSubstr (discPattern args) testPH with
  | none => .error DiscErr.configError
  | some test_pos => .ok (mkDescriptor args test_pos path)

/-- Models `collect::<Result<Vec<_>>>()`: first error wins, otherwise the
list of successes in order. -/
def collectE {ε α : Type} : List (Except ε α) → Except ε (List α)
  | [] => .ok []
  | x :: xs =>
    match x with
    | .error e => .error e
    | .ok a =>
      match collectE xs with
      | .error e => .error e
      | .ok as_ => .ok (a :: as_)

/-- Models `get_tests` (tests.rs lines 132-160).  `globFn` is the filesystem
oracle standing for `glob(..)`: applied to the substituted pattern it either
fails to compile (`Err`, the `?` on line 136) or yields the match list, each
entry being a per-file result (`Result<PathBuf, GlobError>`).  `map_ok`
applies the descriptor closure to `Ok` paths only; the subsequent `.flatten()`
keeps exactly the `Ok` entries (modelled by `filterMap Except.toOption`); the
final `collect` short-circuits on the first closure error. -/
def get_tests (globFn : List Char → Except DiscErr (List (Except Unit (List Char))))
    (args : Args) : Except DiscErr (List Test) :=
  match globFn (replaceL (discPattern args) testPH starL) with
  | .error e => .error e
  | .ok entries =>
    collectE ((entries.filterMap Except.toOption).map (perPathDesc args))

/-! ## main.rs : scheduler state machine -/

/-- Phase of one spawned task in main.rs: `pending` before
`semaphore.acquire()` returns, `admitted` while the permit is held (the whole
body of the task: spawn, run, aggregate), `finalized` once the permit is
dropped at the end of the async block. -/
inductive TaskPhase where
  | pending
  | admitted
  | finalized
deriving Repr, BEq, DecidableEq

/-- Scheduler state: the semaphore size (`args.parallel`) and the phase of
every spawned task. -/
structure SchedState where
  parallel : Nat
  tasks : List TaskPhase
deriving Repr, DecidableEq

/-- Number of tasks currently holding an admission permit. -/
def admittedCount (s : SchedState) : Nat :=
  s.tasks.countP (· == TaskPhase.admitted)

/-- Transitions of the scheduler (main.rs lines 109, 125-150): a pending task
may acquire a permit only while fewer than `parallel` permits are out (the
tokio `Semaphore` guarantee); an admitted task finalizes by dropping its
permit when its outcome or error is settled, whichever branch it took. -/
inductive SchedStep : SchedState → SchedState → Prop where
  | acquire (s : SchedState) (i : Nat)
      (hp : s.tasks[i]? = some TaskPhase.pending)
      (hg : admittedCount s < s.parallel) :
      SchedStep s ⟨s.parallel, s.tasks.set i TaskPhase.admitted⟩
  | finalize (s : SchedState) (i : Nat)
      (hp : s.tasks[i]? = some TaskPhase.admitted) :
      SchedStep s ⟨s.parallel, s.tasks.set i TaskPhase.finalized⟩

/-- Initial scheduler state: `n` spawned tasks, all awaiting admission. -/
def initState (parallel n : Nat) : SchedState :=
  ⟨parallel, List.replicate n TaskPhase.pending⟩

/-- States the scheduler can reach from the start of a run. -/
def Reachable (parallel n : Nat) (s : SchedState) : Prop :=
  Relation.ReflTransGen SchedStep (initState parallel n) s

/-! ## main.rs : aggregation and report -/

/-- `struct TestStats` from main.rs. -/
structure TestStats where
  pass : List (List Char)
  fail : List (List Char)
  timeout : List (List Char)
deriving Repr, DecidableEq

/-- `TestStats::new()`. -/
def TestStats.new : TestStats := ⟨[], [], []⟩

/-- One iteration of the aggregation loop (main.rs lines 164-177). -/
def aggStep (s : TestStats) (r : TestTimeoutResult) : TestStats :=
  match r with
  | .TimedOut name => { s with timeout := s.timeout ++ [name] }
  | .Finished res =>
    if res.correct then { s with pass := s.pass ++ [res.name] }
    else { s with fail := s.fail ++ [res.name] }

/-- The whole aggregation loop, folding outcomes into `TestStats::new()`. -/
def mainStats (results : List TestTimeoutResult) : TestStats :=
  results.foldl aggStep TestStats.new

/-- One task slot as collected from `FuturesUnordered`: the outer `Except` is
the tokio join result, the inner one is `Test::run`'s own result. -/
abbrev RetT : Type := Except Unit (Except RunError TestTimeoutResult)

/-- Models main.rs lines 154-160: both error layers are discarded by the two
`filter_map(|x| x.ok())` calls, keeping only finalized outcomes. -/
def mainResults (rets : List RetT) : List TestTimeoutResult :=
  (rets.filterMap Except.toOption).filterMap Except.toOption

/-- The final report text (main.rs lines 181-187). -/
def report (total passCount failCount timeoutCount : Nat) : String :=
  "*** TEST REPORT ***\n  TOTAL: " ++ toString total ++
    "\n✔ PASS: " ++ toString passCount ++
    "\n✖ FAIL: " ++ toString failCount ++
    "\n✖ TIMEOUT: " ++ toString timeoutCount

/-- End of `main`: aggregate whatever outcomes survived and print the report
(`test_count` is the number of discovered tests). -/
def mainReport (test_count : Nat) (rets : List RetT) : String :=
  report test_count
    (mainStats (mainResults rets)).pass.length
    (mainStats (mainResults rets)).fail.length
    (mainStats (mainResults rets)).timeout.length

/-- Names of the passing tests, in arrival order (specification of the `pass`
bucket of the aggregation loop). -/
def passNames (results : List TestTimeoutResult) : List (List Char) :=
  results.filterMap fun r =>
    match r with
    | .Finished res => if res.correct then some res.name else none
    | .TimedOut _ => none

/-- Names of the failing tests, in arrival order. -/
def failNames (results : List TestTimeoutResult) : List (List Char) :=
  results.filterMap fun r =>
    match r with
    | .Finished res => if res.correct then none else some res.name
    | .TimedOut _ => none

/-- Names of the timed-out tests, in arrival order. -/
def timeoutNames (results : List TestTimeoutResult) : List (List Char) :=
  results.filterMap fun r =>
    match r with
    | .TimedOut name => some name
    | .Finished _ => none

/-! ## Concrete instances used by the witnesses and counterexamples -/

/-- A sample descriptor. -/
def tEx : Test :=
  ⟨"01".toList, "in/sum01.in".toList, "out/sum01.out".toList⟩

/-- A sample child output whose stdout is the bytes of `"42\n"`. -/
def outEx : Output := ⟨0, [52, 50, 10], []⟩

/-- A configuration whose input pattern has no test placeholder. -/
def argsNoTest : Args :=
  ⟨"sum".toList, none, "in/foo.in".toList, "out/foo.out".toList, 5, 5⟩

/-- The default configuration for task `sum`. -/
def argsSum : Args :=
  ⟨"sum".toList, none, "in/\x7btask\x7d\x7btest\x7d.in".toList,
    "out/\x7btask\x7d\x7btest\x7d.out".toList, 5, 5⟩

/-- A filesystem on which the glob matches nothing. -/
def globEmpty : List Char → Except DiscErr (List (Except Unit (List Char))) :=
  fun _ => .ok []

/-- A filesystem on which the glob matches exactly `in/foo.in`. -/
def globOneFoo : List Char → Except DiscErr (List (Except Unit (List Char))) :=
  fun _ => .ok [.ok "in/foo.in".toList]

/-- A filesystem on which the glob matches exactly `in/sum03.in`. -/
def globSum03 : List Char → Except DiscErr (List (Except Unit (List Char))) :=
  fun _ => .ok [.ok "in/sum03.in".toList]

/-- A filesystem on which the glob matches `in/sum01.in` and `in/sum02.in`. -/
def globSum12 : List Char → Except DiscErr (List (Except Unit (List Char))) :=
  fun _ => .ok [.ok "in/sum01.in".toList, .ok "in/sum02.in".toList]

/-- A glob enumeration that hits one per-file filesystem error and one match. -/
def globErrAnd01 : List Char → Except DiscErr (List (Except Unit (List Char))) :=
  fun _ => .ok [.error (), .ok "in/sum01.in".toList]

/-- Task results of a 2-test run whose first test hit an execution error and
whose second test passed. -/
def retsEx : List RetT :=
  [Except.ok (Except.error RunError.ioError),
   Except.ok (Except.ok (.Finished ⟨"01".toList, 1, true, [], ⟨0, [], []⟩⟩))]

/-! ## Lemmas about position / rposition / trim -/

theorem position_none_iff (p : Nat → Bool) (xs : List Nat) :
    position p xs = none ↔ ∀ c ∈ xs, p c = false := by
  induction xs with
  | nil => simp [position]
  | cons c cs ih =>
    by_cases h : p c
    · simp [position, h]
    · simp only [position, Bool.not_eq_true] at h
      simp [position, h, Option.map_eq_none', ih]

theorem position_some_mem (p : Nat → Bool) (xs : List Nat) (i : Nat)
    (h : position p xs = some i) : ∃ c ∈ xs, p c = true := by
  by_contra hall
  push_neg at hall
  have : position p xs = none := by
    rw [position_none_iff]
    intro c hc
    simpa using hall c hc
  simp [this] at h

theorem position_lt_length (p : Nat → Bool) (xs : List Nat) (i : Nat)
    (h : position p xs = some i) : i < xs.length := by
  induction xs generalizing i with
  | nil => simp [position] at h
  | cons c cs ih =>
    by_cases hc : p c
    · simp [position, hc] at h
      simp only [List.length_cons]
      omega
    · simp only [position, Bool.not_eq_true] at h hc
      simp only [hc, if_neg, Bool.false_eq_true, ite_false, Option.map_eq_some'] at h
      obtain ⟨j, hj, rfl⟩ := h
      have := ih j hj
      simp only [List.length_cons]
      omega

theorem position_append_left (p : Nat → Bool) (l r : List Nat) (i : Nat)
    (h : position p l = some i) : position p (l ++ r) = some i := by
  induction l generalizing i with
  | nil => simp [position] at h
  | cons c cs ih =>
    by_cases hc : p c
    · simp [position, hc] at h ⊢
      exact h
    · simp only [position, Bool.not_eq_true] at h hc
      simp only [hc, Bool.false_eq_true, ite_false, Option.map_eq_some'] at h
      obtain ⟨j, hj, rfl⟩ := h
      simp only [List.cons_append, position, hc, Bool.false_eq_true, ite_false,
        Option.map_eq_some']
      exact ⟨j, ih j hj, rfl⟩

theorem dropWhile_head_false (p : Nat → Bool) (l : List Nat) (c : Nat) (cs : List Nat)
    (h : List.dropWhile p l = c :: cs) : p c = false := by
  induction l with
  | nil => simp [List.dropWhile] at h
  | cons a l' ih =>
    rw [List.dropWhile_cons] at h
    by_cases ha : p a
    · rw [if_pos ha] at h
      exact ih h
    · rw [if_neg ha] at h
      obtain ⟨rfl, -⟩ := List.cons.inj h
      simpa using ha

theorem trimImpl_cons_ws (c : Nat) (xs : List Nat) (hc : is_whitespace c = true) :
    trimImpl (c :: xs) = trimImpl xs := by
  have hqc : is_not_whitespace c = false := by simp [is_not_whitespace, hc]
  cases hp : position is_not_whitespace xs with
  | none =>
    have hall := (position_none_iff _ _).1 hp
    have h1 : position is_not_whitespace (c :: xs) = none := by
      rw [position_none_iff]
      intro d hd
      rcases List.mem_cons.1 hd with rfl | hd'
      · exact hqc
      · exact hall d hd'
    simp [trimImpl, h1, hp]
  | some f =>
    have h1 : position is_not_whitespace (c :: xs) = some (f + 1) := by
      simp [position, hqc, hp]
    cases hr : position is_not_whitespace xs.reverse with
    | none =>
      exfalso
      obtain ⟨d, hd, hdq⟩ := position_some_mem _ _ _ hp
      have := (position_none_iff _ _).1 hr d (List.mem_reverse.2 hd)
      simp [this] at hdq
    | some j =>
      have hj : j < xs.length := by
        have := position_lt_length _ _ _ hr
        simpa using this
      have h2 : position is_not_whitespace ((c :: xs).reverse) = some j := by
        rw [List.reverse_cons]
        exact position_append_left _ _ _ _ hr
      simp only [trimImpl, h1, hp, rposition, h2, hr]
      congr 1
      have hlen : (c :: xs).length - 1 - j = (xs.length - 1 - j) + 1 := by
        simp only [List.length_cons]
        omega
      rw [hlen, List.take_succ_cons, List.drop_succ_cons]

theorem trimImpl_concat_ws (xs : List Nat) (c : Nat) (hc : is_whitespace c = true) :
    trimImpl (xs ++ [c]) = trimImpl xs := by
  have hqc : is_not_whitespace c = false := by simp [is_not_whitespace, hc]
  cases hp : position is_not_whitespace xs with
  | none =>
    have hall := (position_none_iff _ _).1 hp
    have h1 : position is_not_whitespace (xs ++ [c]) = none := by
      rw [position_none_iff]
      intro d hd
      rcases List.mem_append.1 hd with hd' | hd'
      · exact hall d hd'
      · rcases List.mem_singleton.1 hd' with rfl
        exact hqc
    simp [trimImpl, h1, hp]
  | some f =>
    have h1 : position is_not_whitespace (xs ++ [c]) = some f :=
      position_append_left _ _ _ _ hp
    cases hr : position is_not_whitespace xs.reverse with
    | none =>
      exfalso
      obtain ⟨d, hd, hdq⟩ := position_some_mem _ _ _ hp
      have := (position_none_iff _ _).1 hr d (List.mem_reverse.2 hd)
      simp [this] at hdq
    | some j =>
      have hj : j < xs.length := by
        have := position_lt_length _ _ _ hr
        simpa using this
      have h2 : position is_not_whitespace ((xs ++ [c]).reverse) = some (j + 1) := by
        have hcrev : (xs ++ [c]).reverse = c :: xs.reverse := by simp
        rw [hcrev]
        simp [position, hqc, hr]
      simp only [trimImpl, h1, hp, rposition, h2, hr]
      congr 1
      have hlen : (xs ++ [c]).length - 1 - (j + 1) = xs.length - 1 - j := by
        simp only [List.length_append, List.length_singleton]
        omega
      rw [hlen]
      have hle : (xs.length - 1 - j) + 1 ≤ xs.length := by omega
      rw [List.take_append_of_le_length hle]

theorem trimImpl_ws_prefix (front : List Nat) :
    ∀ xs : List Nat, (∀ c ∈ front, is_whitespace c = true) →
      trimImpl (front ++ xs) = trimImpl xs := by
  induction front with
  | nil => intro xs _; rfl
  | cons c front' ih =>
    intro xs hws
    rw [List.cons_append, trimImpl_cons_ws c _ (hws c (List.mem_cons_self c front'))]
    exact ih xs fun d hd => hws d (List.mem_cons_of_mem c hd)

theorem trimImpl_ws_suffix (back : List Nat) :
    ∀ xs : List Nat, (∀ c ∈ back, is_whitespace c = true) →
      trimImpl (xs ++ back) = trimImpl xs := by
  induction back with
  | nil => intro xs _; rw [List.append_nil]
  | cons c back' ih =>
    intro xs hws
    have : xs ++ c :: back' = (xs ++ [c]) ++ back' := by simp
    rw [this, ih (xs ++ [c]) fun d hd => hws d (List.mem_cons_of_mem c hd),
      trimImpl_concat_ws xs c (hws c (List.mem_cons_self c back'))]

theorem trimImpl_core (d : Nat) (ds : List Nat) (hd : is_whitespace d = false)
    (e : Nat) (es : List Nat) (hrev : (d :: ds).reverse = e :: es)
    (he : is_whitespace e = false) :
    trimImpl (d :: ds) = some (d :: ds) := by
  have hqd : is_not_whitespace d = true := by simp [is_not_whitespace, hd]
  have hqe : is_not_whitespace e = true := by simp [is_not_whitespace, he]
  have h1 : position is_not_whitespace (d :: ds) = some 0 := by simp [position, hqd]
  have h2 : position is_not_whitespace ((d :: ds).reverse) = some 0 := by
    rw [hrev]
    simp [position, hqe]
  simp only [trimImpl, h1, rposition, h2]
  have hlen : (d :: ds).length - 1 - 0 + 1 = (d :: ds).length := by
    simp only [List.length_cons]
    omega
  rw [hlen, List.take_length, List.drop_zero]

theorem ws_decomp (xs : List Nat) :
    ∃ front core back, xs = front ++ core ++ back ∧
      (∀ c ∈ front, is_whitespace c = true) ∧
      (∀ c ∈ back, is_whitespace c = true) ∧
      ((core = [] ∧ ∀ c ∈ xs, is_whitespace c = true) ∨
       (∃ d ds, core = d :: ds ∧ is_whitespace d = false ∧
        ∃ e es, core.reverse = e :: es ∧ is_whitespace e = false)) := by
  have hsplit := List.takeWhile_append_dropWhile is_whitespace xs
  cases hrest : List.dropWhile is_whitespace xs with
  | nil =>
    refine ⟨List.takeWhile is_whitespace xs, [], [], ?_, ?_, ?_, ?_⟩
    · rw [List.append_nil, List.append_nil]
      rw [hrest] at hsplit
      rw [List.append_nil] at hsplit
      exact hsplit.symm
    · exact fun c hc => List.mem_takeWhile_imp hc
    · intro c hc
      simp at hc
    · refine Or.inl ⟨rfl, ?_⟩
      intro c hc
      rw [hrest, List.append_nil] at hsplit
      rw [← hsplit] at hc
      exact List.mem_takeWhile_imp hc
  | cons r rs =>
    have hr : is_whitespace r = false := dropWhile_head_false _ _ _ _ hrest
    set rest : List Nat := r :: rs with hrestdef
    set revRest : List Nat := rest.reverse with hrevdef
    set core : List Nat := (List.dropWhile is_whitespace revRest).reverse with hcoredef
    set back : List Nat := (List.takeWhile is_whitespace revRest).reverse with hbackdef
    have hcb : core ++ back = rest := by
      rw [hcoredef, hbackdef, ← List.reverse_append,
        List.takeWhile_append_dropWhile, hrevdef, List.reverse_reverse]
    have hback : ∀ c ∈ back, is_whitespace c = true := by
      intro c hc
      rw [hbackdef, List.mem_reverse] at hc
      exact List.mem_takeWhile_imp hc
    have hcorerev : ∃ e es, core.reverse = e :: es ∧ is_whitespace e = false := by
      cases hdw : List.dropWhile is_whitespace revRest with
      | nil =>
        exfalso
        have hcnil : core = [] := by rw [hcoredef, hdw, List.reverse_nil]
        have : rest = back := by rw [← hcb, hcnil, List.nil_append]
        have hrmem : r ∈ back := by
          rw [← this, hrestdef]
          exact List.mem_cons_self r rs
        have := hback r hrmem
        rw [hr] at this
        exact Bool.false_ne_true this
      | cons e es =>
        refine ⟨e, es, ?_, dropWhile_head_false _ _ _ _ hdw⟩
        rw [hcoredef, List.reverse_reverse, hdw]
    refine ⟨List.takeWhile is_whitespace xs, core, back, ?_, ?_, hback, ?_⟩
    · rw [← hcb] at hrest
      nth_rewrite 1 [← hsplit]
      rw [hrest, List.append_assoc]
    · exact fun c hc => List.mem_takeWhile_imp hc
    · refine Or.inr ?_
      obtain ⟨e, es, hce, hew⟩ := hcorerev
      have hcne : core ≠ [] := by
        intro hnil
        rw [hnil, List.reverse_nil] at hce
        exact List.noConfusion hce
      cases hcore : core with
      | nil => exact absurd hcore hcne
      | cons d ds =>
        have hdr : d = r := by
          have : rest = d :: (ds ++ back) := by
            rw [← hcb, hcore, List.cons_append]
          rw [hrestdef] at this
          exact (List.cons.inj this).1.symm
        refine ⟨d, ds, rfl, ?_, e, es, ?_, hew⟩
        · rw [hdr]
          exact hr
        · rw [← hcore]
          exact hce

/-- C10: the byte-slice trim function is total and never panics: for every
byte slice the `unreachable!()` branch is dead (`trimImpl` always returns
`some`), the result is a contiguous subslice of the input, trimming is
idempotent, an all-whitespace slice trims to the empty slice, and when some
byte is non-whitespace both the forward and backward searches succeed with
`first ≤ last` and the result is the subslice `&self[first..last+1]`. -/
theorem C10_trim_total_never_panics (xs : List Nat) :
    ∃ ys, trimImpl xs = some ys ∧
      (∃ s t, xs = s ++ ys ++ t) ∧
      trimImpl ys = some ys ∧
      ((∀ c ∈ xs, is_whitespace c = true) → ys = []) ∧
      ((∃ c ∈ xs, is_whitespace c = false) →
        ∃ first lastIdx, position is_not_whitespace xs = some first ∧
          rposition is_not_whitespace xs = some lastIdx ∧ first ≤ lastIdx ∧
          ys = (xs.take (lastIdx + 1)).drop first ∧ ys ≠ []) := by
  obtain ⟨front, core, back, hx, hfront, hback, hcase⟩ := ws_decomp xs
  have htrim : trimImpl xs = some core := by
    rw [hx, trimImpl_ws_suffix back (front ++ core) hback,
      trimImpl_ws_prefix front core hfront]
    rcases hcase with ⟨hnil, -⟩ | ⟨d, ds, hcore, hd, e, es, hrev, he⟩
    · rw [hnil]
      rfl
    · rw [hcore] at hrev ⊢
      exact trimImpl_core d ds hd e es hrev he
  have hidem : trimImpl core = some core := by
    rcases hcase with ⟨hnil, -⟩ | ⟨d, ds, hcore, hd, e, es, hrev, he⟩
    · rw [hnil]
      rfl
    · rw [hcore] at hrev ⊢
      exact trimImpl_core d ds hd e es hrev he
  refine ⟨core, htrim, ⟨front, back, hx⟩, hidem, ?_, ?_⟩
  · intro hall
    rcases hcase with ⟨hnil, -⟩ | ⟨d, ds, hcore, hd, -⟩
    · exact hnil
    · exfalso
      have hdmem : d ∈ xs := by
        rw [hx, hcore]
        simp
      have := hall d hdmem
      rw [hd] at this
      exact Bool.false_ne_true this
  · rintro ⟨c, hc, hcw⟩
    have hcne : core ≠ [] := by
      rcases hcase with ⟨-, hall⟩ | ⟨d, ds, hcore, -⟩
      · exfalso
        have := hall c hc
        rw [hcw] at this
        exact Bool.false_ne_true this
      · rw [hcore]
        exact List.cons_ne_nil d ds
    cases hf : position is_not_whitespace xs with
    | none =>
      exfalso
      have := (position_none_iff _ _).1 hf c hc
      simp [is_not_whitespace, hcw] at this
    | some first =>
      cases hrr : position is_not_whitespace xs.reverse with
      | none =>
        exfalso
        have := (position_none_iff _ _).1 hrr c (List.mem_reverse.2 hc)
        simp [is_not_whitespace, hcw] at this
      | some j =>
        have hrp : rposition is_not_whitespace xs = some (xs.length - 1 - j) := by
          simp [rposition, hrr]
        have hslice : trimImpl xs
            = some ((xs.take ((xs.length - 1 - j) + 1)).drop first) := by
          simp only [trimImpl, hf, hrp]
        rw [htrim] at hslice
        have hcoreeq := Option.some.inj hslice
        have hlenpos : 0 < core.length := List.length_pos.2 hcne
        have hlen : core.length = min ((xs.length - 1 - j) + 1) xs.length - first := by
          rw [hcoreeq, List.length_drop, List.length_take]
        refine ⟨first, xs.length - 1 - j, rfl, hrp, ?_, hcoreeq, hcne⟩
        rw [hlen] at hlenpos
        omega

/-- Witness for C10 at a concrete input. -/
theorem C10_witness :
    ∃ ys, trimImpl [32, 52, 50, 10] = some ys ∧
      (∃ s t, [32, 52, 50, 10] = s ++ ys ++ t) ∧
      trimImpl ys = some ys ∧
      ((∀ c ∈ [32, 52, 50, 10], is_whitespace c = true) → ys = []) ∧
      ((∃ c ∈ [32, 52, 50, 10], is_whitespace c = false) →
        ∃ first lastIdx,
          position is_not_whitespace [32, 52, 50, 10] = some first ∧
          rposition is_not_whitespace [32, 52, 50, 10] = some lastIdx ∧
          first ≤ lastIdx ∧
          ys = ([32, 52, 50, 10].take (lastIdx + 1)).drop first ∧ ys ≠ []) :=
  C10_trim_total_never_panics [32, 52, 50, 10]

/-! ## Lemmas about the aggregation loop -/

theorem foldl_aggStep (l : List TestTimeoutResult) :
    ∀ acc : TestStats,
      l.foldl aggStep acc
        = ⟨acc.pass ++ passNames l, acc.fail ++ failNames l,
           acc.timeout ++ timeoutNames l⟩ := by
  induction l with
  | nil =>
    intro acc
    cases acc
    simp [passNames, failNames, timeoutNames]
  | cons r rs ih =>
    intro acc
    rw [List.foldl_cons, ih]
    cases r with
    | TimedOut name =>
      simp [aggStep, passNames, failNames, timeoutNames, List.filterMap_cons]
    | Finished res =>
      by_cases hc : res.correct <;>
        simp [aggStep, hc, passNames, failNames, timeoutNames,
          List.filterMap_cons, List.append_assoc]

theorem mainStats_eq (results : List TestTimeoutResult) :
    mainStats results
      = ⟨passNames results, failNames results, timeoutNames results⟩ := by
  rw [mainStats, TestStats.new, foldl_aggStep]
  simp

theorem names_length (results : List TestTimeoutResult) :
    (passNames results).length + (failNames results).length
      + (timeoutNames results).length = results.length := by
  induction results with
  | nil => simp [passNames, failNames, timeoutNames]
  | cons r rs ih =>
    cases r with
    | TimedOut name =>
      simp only [passNames, failNames, timeoutNames, List.filterMap_cons] at *
      simp only [List.length_cons]
      omega
    | Finished res =>
      by_cases hc : res.correct <;>
        · simp [passNames, failNames, timeoutNames, List.filterMap_cons, hc] at *
          omega

/-! ## C1 -/

/-- C1: when the child terminates before the timeout and both file reads
succeed, the Completed (`Finished`) outcome's `correct` flag is exactly the
trimmed byte-for-byte comparison of the captured stdout against the
expected-output file; in particular the bytes of `"42\n"` compare equal to
those of `"42"` and unequal to those of `"420"`. -/
theorem C1_completed_correct_iff_trimmed_eq (t : Test) (elapsed : Nat)
    (out : Output) (expected stdinBytes : List Nat) :
    Test.run t elapsed (.finished (.ok out)) (.ok expected) (.ok stdinBytes)
      = .ok (.Finished
          ⟨t.name, elapsed, is_correct expected out.stdout, stdinBytes, out⟩) ∧
    (is_correct expected out.stdout = true ↔ trim out.stdout = trim expected) ∧
    is_correct [52, 50] [52, 50, 10] = true ∧
    is_correct [52, 50, 48] [52, 50, 10] = false := by
  refine ⟨rfl, ?_, by decide, by decide⟩
  simp [is_correct]

/-- Witness for C1 at a concrete test, output and expected file. -/
theorem C1_witness :
    Test.run tEx 1 (.finished (.ok outEx)) (.ok [52, 50]) (.ok [50, 32, 51, 10])
      = .ok (.Finished
          ⟨tEx.name, 1, is_correct [52, 50] outEx.stdout, [50, 32, 51, 10], outEx⟩) ∧
    (is_correct [52, 50] outEx.stdout = true ↔ trim outEx.stdout = trim [52, 50]) ∧
    is_correct [52, 50] [52, 50, 10] = true ∧
    is_correct [52, 50, 48] [52, 50, 10] = false :=
  C1_completed_correct_iff_trimmed_eq tEx 1 outEx [52, 50] [50, 32, 51, 10]

/-! ## C2 -/

/-- C2: if the timeout elapses before the child terminates, `Test::run`
returns the `TimedOut` outcome carrying the test's name as a successful (`Ok`)
value rather than an error, the child is killed (it was spawned with
`kill_on_drop(true)`, and the inner future is dropped when the race is lost),
and the aggregation loop places that name in the timeout set. -/
theorem C2_timeout_kills_and_is_ok_outcome (t : Test) (elapsed : Nat)
    (outFileRead inFileRead : Except RunError (List Nat))
    (results : List TestTimeoutResult) (n : List Char) :
    Test.run t elapsed .timedOut outFileRead inFileRead
      = .ok (.TimedOut t.name) ∧
    childFate spawnKillOnDrop .timedOut = .killed ∧
    (TestTimeoutResult.TimedOut n ∈ results → n ∈ (mainStats results).timeout) := by
  refine ⟨rfl, rfl, ?_⟩
  intro hmem
  rw [mainStats_eq]
  exact List.mem_filterMap.2 ⟨.TimedOut n, hmem, rfl⟩

/-- Witness for C2 at a concrete test and result list. -/
theorem C2_witness :
    Test.run tEx 9 .timedOut (.ok []) (.ok []) = .ok (.TimedOut tEx.name) ∧
    "01".toList ∈ (mainStats [.TimedOut "01".toList]).timeout := by
  have h := C2_timeout_kills_and_is_ok_outcome tEx 9 (.ok []) (.ok [])
    [.TimedOut "01".toList] "01".toList
  exact ⟨h.1, h.2.2 (List.mem_singleton.2 rfl)⟩

/-! ## C3 -/

/-- C3: a per-test execution error does not abort sibling tests or the run:
an erroring slot contributes nothing to the collected outcomes (siblings on
both sides are kept), the three buckets partition exactly the successfully
finalized outcomes (so an erroring test is in none of them), their total never
exceeds the number of discovered tests, and on a concrete 2-test run with one
execution error the report still prints with total 2 against 1 classified
test. -/
theorem C3_execution_error_isolation (rets1 rets2 : List RetT) (e : RunError) :
    mainResults (rets1 ++ [Except.ok (Except.error e)] ++ rets2)
      = mainResults rets1 ++ mainResults rets2 ∧
    mainResults (rets1 ++ [Except.error ()] ++ rets2)
      = mainResults rets1 ++ mainResults rets2 ∧
    (∀ rets : List RetT,
      (mainStats (mainResults rets)).pass.length
        + (mainStats (mainResults rets)).fail.length
        + (mainStats (mainResults rets)).timeout.length
        = (mainResults rets).length ∧
      (mainResults rets).length ≤ rets.length) ∧
    (mainResults retsEx).length = 1 ∧
    mainReport 2 retsEx
      = "*** TEST REPORT ***\n  TOTAL: 2\n✔ PASS: 1\n✖ FAIL: 0\n✖ TIMEOUT: 0" := by
  refine ⟨?_, ?_, ?_, rfl, rfl⟩
  · simp [mainResults, List.filterMap_append, Except.toOption]
  · simp [mainResults, List.filterMap_append, Except.toOption]
  · intro rets
    constructor
    · rw [mainStats_eq]
      exact names_length (mainResults rets)
    · calc (mainResults rets).length
          ≤ (rets.filterMap Except.toOption).length :=
            List.length_filterMap_le _ _
        _ ≤ rets.length := List.length_filterMap_le _ _

/-- Witness for C3 at concrete sibling lists. -/
theorem C3_witness :
    mainResults ([Except.ok (Except.ok (.TimedOut "02".toList))]
        ++ [Except.ok (Except.error RunError.ioError)] ++ [])
      = mainResults [Except.ok (Except.ok (.TimedOut "02".toList))]
        ++ mainResults [] ∧
    (mainResults retsEx).length = 1 :=
  ⟨(C3_execution_error_isolation
      [Except.ok (Except.ok (.TimedOut "02".toList))] [] RunError.ioError).1,
   (C3_execution_error_isolation [] [] RunError.ioError).2.2.2.1⟩

/-! ## Lemmas about discovery -/

theorem collectE_map_ok {ε α β : Type} (f : α → β) (l : List α) :
    collectE (ε := ε) (l.map fun a => Except.ok (f a)) = Except.ok (l.map f) := by
  induction l with
  | nil => rfl
  | cons a l' ih => simp [collectE, ih]

theorem get_tests_ok (args : Args)
    (globFn : List Char → Except DiscErr (List (Except Unit (List Char))))
    (entries : List (Except Unit (List Char))) (test_pos : Nat)
    (hfind : findSubstr (discPattern args) testPH = some test_pos)
    (hglob : globFn (replaceL (discPattern args) testPH starL) = .ok entries) :
    get_tests globFn args
      = .ok ((entries.filterMap Except.toOption).map (mkDescriptor args test_pos)) := by
  simp only [get_tests, hglob]
  have hpp : perPathDesc args = fun p => Except.ok (mkDescriptor args test_pos p) := by
    funext p
    simp [perPathDesc, hfind]
  rw [hpp, collectE_map_ok]

theorem slice_extract (pre mid suf : List Char) :
    sliceL (pre ++ mid ++ suf) pre.length (pre.length + mid.length) = mid := by
  rw [sliceL, List.append_assoc, List.take_append, ← List.take_left mid suf,
    List.drop_left]
  rw [List.take_left]

theorem recoverTestId_eq_mid (args : Args) (pre mid suf : List Char)
    (hpat : discPattern args = pre ++ testPH ++ suf) :
    recoverTestId args pre.length (pre ++ mid ++ suf) = mid := by
  rw [recoverTestId, hpat]
  have harith : (pre ++ mid ++ suf).length
      - ((pre ++ testPH ++ suf).length - (pre.length + testPH.length))
      = pre.length + mid.length := by
    simp only [List.length_append]
    omega
  rw [harith]
  exact slice_extract pre mid suf

/-! ## C4 -/

/-- C4 counterexample: with the test placeholder absent from the input
pattern and no filesystem path matching the (wildcard-free) glob, discovery
does NOT fail with a `ConfigError` — it silently returns the empty test list,
refuting the claim that it always fails before any test executes. -/
theorem C4_counterexample : get_tests globEmpty argsNoTest = .ok [] := rfl

/-- C4 amended: when the input pattern lacks the test placeholder, discovery
fails with the `ConfigError` if and only if the glob matched at least one
path (the placeholder check sits inside the per-match closure); with zero
matches it silently returns the empty test list. -/
theorem C4_missing_placeholder (args : Args)
    (globFn : List Char → Except DiscErr (List (Except Unit (List Char))))
    (entries : List (Except Unit (List Char)))
    (hmissing : findSubstr (discPattern args) testPH = none)
    (hglob : globFn (replaceL (discPattern args) testPH starL) = .ok entries) :
    (entries.filterMap Except.toOption = [] → get_tests globFn args = .ok []) ∧
    (entries.filterMap Except.toOption ≠ [] →
      get_tests globFn args = .error DiscErr.configError) := by
  constructor
  · intro hnil
    simp [get_tests, hglob, hnil, collectE]
  · intro hne
    cases hpaths : entries.filterMap Except.toOption with
    | nil => exact absurd hpaths hne
    | cons p ps =>
      simp [get_tests, hglob, hpaths, perPathDesc, hmissing, collectE]

/-- Witness for C4's amended statement: one matched path does trigger the
config error. -/
theorem C4_missing_placeholder_witness :
    get_tests globOneFoo argsNoTest = .error DiscErr.configError :=
  (C4_missing_placeholder argsNoTest globOneFoo [.ok "in/foo.in".toList]
    (by decide) rfl).2 (by decide)

/-! ## C5 -/

/-- C5: for every matched input path, discovery recovers the test id as the
substring of the matched path from the offset of the test placeholder in the
task-substituted input pattern up to (path length − length of the pattern's
literal suffix after the placeholder) — which is exactly the middle segment
`mid` when the path decomposes against the pattern — and builds the output
path by substituting the task and the recovered id into the output pattern. -/
theorem C5_test_id_recovery (args : Args)
    (globFn : List Char → Except DiscErr (List (Except Unit (List Char))))
    (entries : List (Except Unit (List Char))) (pre mid suf path : List Char)
    (hpat : discPattern args = pre ++ testPH ++ suf)
    (hfind : findSubstr (discPattern args) testPH = some pre.length)
    (hglob : globFn (replaceL (discPattern args) testPH starL) = .ok entries)
    (hmem : path ∈ entries.filterMap Except.toOption)
    (hdec : path = pre ++ mid ++ suf) :
    ∃ ts, get_tests globFn args = .ok ts ∧
      ∃ t ∈ ts, t.in_file = path ∧
        t.name = sliceL path pre.length
          (path.length - ((discPattern args).length - (pre.length + testPH.length))) ∧
        t.name = mid ∧
        t.out_file
          = replaceL (replaceL args.out_pattern taskPH args.task) testPH mid := by
  refine ⟨_, get_tests_ok args globFn entries pre.length hfind hglob, ?_⟩
  refine ⟨mkDescriptor args pre.length path, List.mem_map_of_mem _ hmem, rfl, rfl,
    ?_, ?_⟩
  · rw [hdec]
    exact recoverTestId_eq_mid args pre mid suf hpat
  · show replaceL (replaceL args.out_pattern taskPH args.task) testPH
        (recoverTestId args pre.length path) = _
    rw [hdec, recoverTestId_eq_mid args pre mid suf hpat]

/-- Witness for C5: pattern `in/{task}{test}.in`, task `sum`, matched path
`in/sum03.in`, recovered id `03`, output path `out/sum03.out`. -/
theorem C5_witness :
    ∃ ts, get_tests globSum03 argsSum = .ok ts ∧
      ∃ t ∈ ts, t.in_file = "in/sum03.in".toList ∧
        t.name = sliceL "in/sum03.in".toList "in/sum".toList.length
          ("in/sum03.in".toList.length
            - ((discPattern argsSum).length
              - ("in/sum".toList.length + testPH.length))) ∧
        t.name = "03".toList ∧
        t.out_file
          = replaceL (replaceL argsSum.out_pattern taskPH argsSum.task) testPH
              "03".toList :=
  C5_test_id_recovery argsSum globSum03 [.ok "in/sum03.in".toList]
    "in/sum".toList "03".toList ".in".toList "in/sum03.in".toList
    (by decide) (by decide) rfl (by decide) (by decide)

/-! ## C6 -/

/-- C6: for a valid pattern (the test placeholder present, its first
occurrence at the end of the literal prefix) and N distinct matched paths,
each matching the pattern's literal prefix and suffix, discovery produces
exactly N descriptors whose N test ids are pairwise distinct. -/
theorem C6_discovery_exact_and_distinct (args : Args)
    (globFn : List Char → Except DiscErr (List (Except Unit (List Char))))
    (entries : List (Except Unit (List Char))) (pre suf : List Char)
    (hpat : discPattern args = pre ++ testPH ++ suf)
    (hfind : findSubstr (discPattern args) testPH = some pre.length)
    (hglob : globFn (replaceL (discPattern args) testPH starL) = .ok entries)
    (hdecomp : ∀ p ∈ entries.filterMap Except.toOption,
      ∃ mid, p = pre ++ mid ++ suf)
    (hnodup : (entries.filterMap Except.toOption).Nodup) :
    ∃ ts, get_tests globFn args = .ok ts ∧
      ts.length = (entries.filterMap Except.toOption).length ∧
      (ts.map Test.name).Nodup := by
  refine ⟨_, get_tests_ok args globFn entries pre.length hfind hglob,
    List.length_map _ _, ?_⟩
  rw [List.map_map]
  refine List.Nodup.map_on ?_ hnodup
  intro x hx y hy hxy
  obtain ⟨mx, hmx⟩ := hdecomp x hx
  obtain ⟨my, hmy⟩ := hdecomp y hy
  have hxname : (Test.name ∘ mkDescriptor args pre.length) x = mx := by
    simp only [Function.comp_apply, mkDescriptor, hmx]
    exact recoverTestId_eq_mid args pre mx suf hpat
  have hyname : (Test.name ∘ mkDescriptor args pre.length) y = my := by
    simp only [Function.comp_apply, mkDescriptor, hmy]
    exact recoverTestId_eq_mid args pre my suf hpat
  rw [hxname, hyname] at hxy
  rw [hmx, hmy, hxy]

/-- Witness for C6: two matched paths give two descriptors with distinct
ids `01` and `02`. -/
theorem C6_witness :
    ∃ ts, get_tests globSum12 argsSum = .ok ts ∧
      ts.length
        = (([Except.ok "in/sum01.in".toList,
             Except.ok "in/sum02.in".toList] :
            List (Except Unit (List Char))).filterMap Except.toOption).length ∧
      (ts.map Test.name).Nodup := by
  refine C6_discovery_exact_and_distinct argsSum globSum12
    [.ok "in/sum01.in".toList, .ok "in/sum02.in".toList]
    "in/sum".toList ".in".toList (by decide) (by decide) rfl ?_ (by decide)
  intro p hp
  have hp' : p = "in/sum01.in".toList ∨ p = "in/sum02.in".toList := by
    simpa [List.filterMap_cons, Except.toOption] using hp
  rcases hp' with rfl | rfl
  · exact ⟨"01".toList, by decide⟩
  · exact ⟨"02".toList, by decide⟩

/-! ## C7 -/

/-- C7 (code bug): `Test::run` performs a single `write` on the child's stdin
and discards the returned byte count, so the child can observe a strict
prefix of the input file followed by end-of-input.  With an input of 65537
bytes and a single write accepting 65536 bytes (a legal result of `write`,
e.g. a full 64 KiB pipe buffer), the delivered payload is not the entire
input, contradicting the spec's "write the entire stdin payload". -/
theorem C7_partial_write_bug :
    stdinDelivered (List.replicate 65537 48) 65536 = List.replicate 65536 48 ∧
    stdinDelivered (List.replicate 65537 48) 65536 ≠ List.replicate 65537 48 ∧
    0 < 65536 ∧ 65536 ≤ (List.replicate 65537 48).length := by
  have heq : stdinDelivered (List.replicate 65537 48) 65536
      = List.replicate 65536 48 := by
    rw [stdinDelivered, List.take_replicate]
    norm_num
  refine ⟨heq, ?_, by norm_num, ?_⟩
  · rw [heq]
    intro hcontra
    have hlen := congrArg List.length hcontra
    rw [List.length_replicate, List.length_replicate] at hlen
    omega
  · rw [List.length_replicate]
    omega

/-! ## C8 -/

/-- C8 counterexample: a per-file filesystem error during glob enumeration is
NOT fatal — it is silently dropped by the `.flatten()` step and discovery
proceeds with the remaining file, refuting the claim that every enumeration
failure propagates and terminates the run. -/
theorem C8_counterexample :
    get_tests globErrAnd01 argsSum
      = .ok [⟨"01".toList, "in/sum01.in".toList, "out/sum01.out".toList⟩] := rfl

/-- C8 amended: only a glob pattern-compilation failure is fatal (the `?` on
`glob(..)` propagates it before any per-file work); per-file enumeration
errors are silently dropped by the flatten step, leaving discovery's result
unchanged. -/
theorem C8_pattern_fatal_perfile_dropped (args : Args) (e : DiscErr)
    (entries : List (Except Unit (List Char))) :
    get_tests (fun _ => .error e) args = .error e ∧
    get_tests (fun _ => .ok (.error () :: entries)) args
      = get_tests (fun _ => .ok entries) args := by
  constructor
  · rfl
  · simp [get_tests, List.filterMap_cons, Except.toOption]

/-! ## C9 -/

theorem countP_set_balance (p : TaskPhase → Bool) (l : List TaskPhase) :
    ∀ (i : Nat) (b a : TaskPhase), l[i]? = some b →
      (l.set i a).countP p + (if p b then 1 else 0)
        = l.countP p + (if p a then 1 else 0) := by
  induction l with
  | nil =>
    intro i b a h
    simp at h
  | cons c cs ih =>
    intro i b a h
    cases i with
    | zero =>
      rw [List.getElem?_cons_zero] at h
      obtain rfl := Option.some.inj h
      rw [List.set_cons_zero, List.countP_cons, List.countP_cons]
      split_ifs <;> omega
    | succ i' =>
      rw [List.getElem?_cons_succ] at h
      rw [List.set_cons_succ, List.countP_cons, List.countP_cons]
      have := ih i' b a h
      split_ifs at * <;> omega

theorem sched_invariant (parallel n : Nat) (s : SchedState)
    (h : Reachable parallel n s) :
    admittedCount s ≤ s.parallel ∧ s.parallel = parallel := by
  induction h with
  | refl =>
    refine ⟨?_, rfl⟩
    have hz : ∀ m, (List.replicate m TaskPhase.pending).countP
        (fun x => x == TaskPhase.admitted) = 0 := by
      intro m
      induction m with
      | zero => rfl
      | succ m' ihm =>
        rw [List.replicate_succ, List.countP_cons, ihm]
        rfl
    show (List.replicate n TaskPhase.pending).countP
      (fun x => x == TaskPhase.admitted) ≤ parallel
    rw [hz n]
    omega
  | @tail b c hsteps hstep ih =>
    obtain ⟨ihc, ihp⟩ := ih
    have ihc' : b.tasks.countP (fun x => x == TaskPhase.admitted) ≤ b.parallel := ihc
    cases hstep with
    | acquire i hp hg =>
      refine ⟨?_, ihp⟩
      have hb := countP_set_balance (fun x => x == TaskPhase.admitted) b.tasks i
        TaskPhase.pending TaskPhase.admitted hp
      simp only [show (TaskPhase.pending == TaskPhase.admitted) = false from rfl,
        show (TaskPhase.admitted == TaskPhase.admitted) = true from rfl] at hb
      norm_num at hb
      have hg' : b.tasks.countP (fun x => x == TaskPhase.admitted) < b.parallel := hg
      show (b.tasks.set i TaskPhase.admitted).countP
        (fun x => x == TaskPhase.admitted) ≤ b.parallel
      omega
    | finalize i hp =>
      refine ⟨?_, ihp⟩
      have hb := countP_set_balance (fun x => x == TaskPhase.admitted) b.tasks i
        TaskPhase.admitted TaskPhase.finalized hp
      simp only [show (TaskPhase.admitted == TaskPhase.admitted) = true from rfl,
        show (TaskPhase.finalized == TaskPhase.admitted) = false from rfl] at hb
      norm_num at hb
      show (b.tasks.set i TaskPhase.finalized).countP
        (fun x => x == TaskPhase.admitted) ≤ b.parallel
      omega

/-- C9: in every state the scheduler can reach, at most `parallel` tasks hold
admission slots (and hence at most that many child processes are alive): a
task moves to `admitted` before its spawn step only through the guarded
`acquire` transition and leaves the slot only by `finalize`, regardless of
which branch its body takes. -/
theorem C9_admission_bound (parallel n : Nat) (s : SchedState)
    (h : Reachable parallel n s) : admittedCount s ≤ parallel := by
  obtain ⟨hc, hp⟩ := sched_invariant parallel n s h
  omega

/-- Witness for C9: the state after one task of three acquires a permit under
`parallel = 2` is reachable and within the bound. -/
theorem C9_witness :
    admittedCount ⟨(initState 2 3).parallel,
      (initState 2 3).tasks.set 0 TaskPhase.admitted⟩ ≤ 2 :=
  C9_admission_bound 2 3 _
    (Relation.ReflTransGen.single
      (SchedStep.acquire (initState 2 3) 0 (by decide) (by decide)))

end Competitest
